import Mathlib

/-!
Verification development for the go-ast-parser repository.

Shallow embedding conventions:
* Go strings are Lean `String` (a wrapper around `List Char`); Go byte offsets
  and `len(string)` are modelled as character offsets and `String.length`.
* `token.Position` values: the source always obtains positions through
  `pkg.Fset.Position(node.Pos())`; the embedding precomposes that call and
  stores the resulting `Position` (line, offset) directly on each node.
* The `go/types` resolution tables (`types.Info`) are modelled by `Info`:
  `typeOf` is the `TypeOf` lookup returning the resolved type's `String()`
  rendering when present, and `uses` is the `Uses` map keyed by the identity
  of the identifier node (each `Expr.ident` carries a numeric identity `id`,
  standing for the `*ast.Ident` pointer that keys the Go map).
* File reads (`ioutil.ReadFile`) are modelled by an explicit filesystem
  function `FS : String -> Option String` (`none` = read error); the
  extraction functions additionally return the list of file paths passed to
  `ReadFile`, in order, so that read counts are observable.
* `log.Printf` diagnostics carry no data flow and are dropped.
-/

/-- Direction of a Go channel type (`ast.ChanType.Dir`). -/
inductive ChanDir where
  | send
  | recv
  | both
deriving DecidableEq

mutual

/-- Go AST expressions, covering exactly the shapes `analyzer.GetTypeString`
dispatches on plus struct literals (tested by `processTypeSpecification`).
`ident` carries a numeric node identity (standing for the pointer that keys
`types.Info.Uses`) and the identifier's name.  `structT` and `otherE` carry
the `go/printer` verbatim rendering used by the fallback branch of
`GetTypeString`, since the printer itself is outside the model.  `otherE` is
an opaque leaf: expression forms that are irrelevant to the analyzer's
structural cases are flattened at the statement level into the ordered list
of their relevant subexpressions. -/
inductive Expr where
  | ident (id : Nat) (name : String)
  | star (x : Expr)
  | arrayT (elt : Expr)
  | mapT (key value : Expr)
  | sel (x : Expr) (member : String)
  | structT (fields : Fields) (printed : String)
  | interfaceT (methods : Fields)
  | chanT (dir : ChanDir) (value : Expr)
  | ellipsis (elt : Expr)
  | funcT (params : OptFields) (results : OptFields)
  | otherE (printed : String)

/-- A Go `ast.FieldList` as a chain of fields, each with its name list and
type expression (`ast.Field.Names` / `ast.Field.Type`). -/
inductive Fields where
  | fnil
  | fcons (names : List String) (type : Expr) (rest : Fields)

/-- A nilable `*ast.FieldList` pointer (`ast.FuncType.Params` / `.Results`). -/
inductive OptFields where
  | fnone
  | fsome (fs : Fields)

end

/-- The object a used identifier resolves to (`types.Info.Uses` lookup):
either an imported package name (`*types.PkgName`, carrying the import's
full path `pkgName.Imported().Path()`) or any other object kind. -/
inductive UseObj where
  | pkgName (importPath : String)
  | otherObj
deriving DecidableEq

/-- The slice of `*types.Info` the core reads: `TypeOf` (returning the
resolved type's `String()` rendering when the table has an entry) and
`Uses` (keyed by identifier node identity). -/
structure Info where
  typeOf : Expr → Option String
  uses : Nat → Option UseObj

/-- The package-name lookup shared by `GetTypeString`, `ExtractAccessedSymbols`
and `ApplyQualifierReplacements`: if the expression is an identifier whose
used object is a `*types.PkgName`, return that import's full path. -/
def identPkgPath (x : Expr) (info : Info) : Option String :=
  match x with
  | .ident id _ =>
    match info.uses id with
    | some (.pkgName p) => some p
    | _ => none
  | _ => none

/-- The `ft.Results.List[0].Names == nil` test inside `GetSignature`. -/
def firstResultUnnamedOf (rs : OptFields) : Bool :=
  match rs with
  | .fsome (.fcons names _ _) => names.isEmpty
  | _ => false

/-- The pure formatting half of `analyzer.GetSignature`, taking the already
rendered parameter and result strings.  A single unnamed result collapses to
a bare trailing type; multiple or named results are parenthesized and
comma-joined. -/
def signatureString (params results : List String) (firstResultUnnamed : Bool) : String :=
  let paramStr := "(" ++ String.intercalate ", " params ++ ")"
  let resultStr :=
    if results.length > 0 then
      if results.length = 1 ∧ firstResultUnnamed then " " ++ results.headD ""
      else " (" ++ String.intercalate ", " results ++ ")"
    else ""
  paramStr ++ resultStr

mutual

/-- `analyzer.GetTypeString`: prefer the resolved type string from the
type-resolution table; otherwise reconstruct structurally. -/
def GetTypeString (e : Expr) (info : Info) : String :=
  match info.typeOf e with
  | some tv => tv
  | none =>
    match e with
    | .ident _ name => name
    | .star x => "*" ++ GetTypeString x info
    | .arrayT elt => "[]" ++ GetTypeString elt info
    | .mapT k v => "map[" ++ GetTypeString k info ++ "]" ++ GetTypeString v info
    | .sel x m =>
      match identPkgPath x info with
      | some p => p ++ "." ++ m
      | none => GetTypeString x info ++ "." ++ m
    | .structT _ printed => printed
    | .interfaceT _ => "interface\x7b\x7d"
    | .chanT dir v =>
      (match dir with
       | .send => "chan<- "
       | .recv => "<-chan "
       | .both => "chan ") ++ GetTypeString v info
    | .ellipsis elt => "..." ++ GetTypeString elt info
    | .funcT ps rs =>
      "func" ++ signatureString (optFieldStrings ps info) (optFieldStrings rs info)
        (firstResultUnnamedOf rs)
    | .otherE printed => printed

/-- The per-field rendering loop shared by the parameter and result halves of
`GetSignature`: an unnamed field contributes its type string once, a named
field contributes `name + " " + type` per name. -/
def fieldStrings (fs : Fields) (info : Info) : List String :=
  match fs with
  | .fnil => []
  | .fcons names t rest =>
    let typeStr := GetTypeString t info
    (if names = [] then [typeStr] else names.map (fun n => n ++ " " ++ typeStr)) ++
      fieldStrings rest info

/-- The `!= nil` guard around each field-list half of `GetSignature`: a nil
field list contributes no strings. -/
def optFieldStrings (ofs : OptFields) (info : Info) : List String :=
  match ofs with
  | .fnone => []
  | .fsome fs => fieldStrings fs info

end

/-- `analyzer.GetSignature` as the source states it, assembled from its two
rendering halves (it participates in the `GetTypeString` recursion through
`optFieldStrings` and `signatureString`). -/
def GetSignature (ps rs : OptFields) (info : Info) : String :=
  signatureString (optFieldStrings ps info) (optFieldStrings rs info) (firstResultUnnamedOf rs)

mutual

/-- The `ast.Inspect` callback of `analyzer.ExtractAccessedSymbols`, flattened
into a pre-order walk: every `SelectorExpr` whose base is an identifier used
as an imported package name contributes `<import-path>.<member>`. -/
def collectSymE (info : Info) : Expr → List String
  | .ident _ _ => []
  | .star x => collectSymE info x
  | .arrayT elt => collectSymE info elt
  | .mapT k v => collectSymE info k ++ collectSymE info v
  | .sel x m =>
    (match identPkgPath x info with
     | some p => [p ++ "." ++ m]
     | none => []) ++ collectSymE info x
  | .structT fs _ => collectSymFs info fs
  | .interfaceT ms => collectSymFs info ms
  | .chanT _ v => collectSymE info v
  | .ellipsis elt => collectSymE info elt
  | .funcT ps rs => collectSymOF info ps ++ collectSymOF info rs
  | .otherE _ => []

/-- Pre-order walk of a field chain for `ExtractAccessedSymbols`. -/
def collectSymFs (info : Info) : Fields → List String
  | .fnil => []
  | .fcons _ t rest => collectSymE info t ++ collectSymFs info rest

/-- Pre-order walk of a nilable field list for `ExtractAccessedSymbols`. -/
def collectSymOF (info : Info) : OptFields → List String
  | .fnone => []
  | .fsome fs => collectSymFs info fs

end

mutual

/-- The `ast.Inspect` callback of `transform.ApplyQualifierReplacements`,
flattened into a pre-order walk: every `SelectorExpr` whose base is an
identifier used as an imported package name, and whose alias differs from
the full import path, contributes the pair `(alias, fullImportPath)`. -/
def collectReplE (info : Info) : Expr → List (String × String)
  | .ident _ _ => []
  | .star x => collectReplE info x
  | .arrayT elt => collectReplE info elt
  | .mapT k v => collectReplE info k ++ collectReplE info v
  | .sel x _ =>
    (match x with
     | .ident id name =>
       (match info.uses id with
        | some (.pkgName p) => if name ≠ p then [(name, p)] else []
        | _ => [])
     | _ => []) ++ collectReplE info x
  | .structT fs _ => collectReplFs info fs
  | .interfaceT ms => collectReplFs info ms
  | .chanT _ v => collectReplE info v
  | .ellipsis elt => collectReplE info elt
  | .funcT ps rs => collectReplOF info ps ++ collectReplOF info rs
  | .otherE _ => []

/-- Pre-order walk of a field chain for the qualifier-replacement discovery. -/
def collectReplFs (info : Info) : Fields → List (String × String)
  | .fnil => []
  | .fcons _ t rest => collectReplE info t ++ collectReplFs info rest

/-- Pre-order walk of a nilable field list for the qualifier-replacement
discovery. -/
def collectReplOF (info : Info) : OptFields → List (String × String)
  | .fnone => []
  | .fsome fs => collectReplFs info fs

end

/-- A `token.Position` as used by the extractor: the 1-based line number and
the byte offset (`Position.Line`, `Position.Offset`). -/
structure Position where
  line : Nat
  offset : Int
deriving DecidableEq

/-- A Go declaration-group token (`ast.GenDecl.Tok`). -/
inductive Tok where
  | importTok
  | constTok
  | typeTok
  | varTok
deriving DecidableEq

/-- One `ast.Spec` inside a `GenDecl`, carrying the `Position` values the
extractor obtains from `pkg.Fset.Position(spec.Pos())` and
`pkg.Fset.Position(spec.End())`.  `typeSpec` is `*ast.TypeSpec` (declared
name plus underlying type expression); `valueSpec` is `*ast.ValueSpec`
(name list, optional type annotation, initializer expressions);
`importSpec` stands for every other `ast.Spec` shape, which the
specification switch ignores. -/
inductive Spec where
  | typeSpec (name : String) (typ : Expr) (pos endp : Position)
  | valueSpec (names : List String) (typ : Option Expr) (values : List Expr) (pos endp : Position)
  | importSpec (pos endp : Position)

/-- An `*ast.FuncDecl`: the function name, the nilable receiver field list
(`Recv`, modelled by the list of receiver field type expressions), and the
ordered list of the declaration's remaining expression subtrees (signature
and body), which is what the `ast.Inspect` walks traverse. -/
structure FuncDecl where
  name : String
  recv : Option (List Expr)
  rest : List Expr

/-- A top-level `ast.Decl` with the `Position` values of its span.
`badDecl` stands for declaration shapes outside `*ast.FuncDecl` and
`*ast.GenDecl`, which `processDeclaration` ignores. -/
inductive Decl where
  | funcDecl (fd : FuncDecl) (pos endp : Position)
  | genDecl (tok : Tok) (specs : List Spec) (pos endp : Position)
  | badDecl (pos endp : Position)

/-- Span start of a declaration. -/
def Decl.pos : Decl → Position
  | .funcDecl _ p _ => p
  | .genDecl _ _ p _ => p
  | .badDecl p _ => p

/-- Span end of a declaration. -/
def Decl.endp : Decl → Position
  | .funcDecl _ _ e => e
  | .genDecl _ _ _ e => e
  | .badDecl _ e => e

/-- Span start of a specification. -/
def Spec.pos : Spec → Position
  | .typeSpec _ _ p _ => p
  | .valueSpec _ _ _ p _ => p
  | .importSpec p _ => p

/-- Span end of a specification. -/
def Spec.endp : Spec → Position
  | .typeSpec _ _ _ e => e
  | .valueSpec _ _ _ _ e => e
  | .importSpec _ e => e

/-- An `ast.Node` argument as handed to `ExtractAccessedSymbols` and
`ApplyQualifierReplacements`: a whole function declaration, a whole
declaration group, a single specification, a bare expression, or a
declaration shape carrying no expressions. -/
inductive Node where
  | funcDeclNode (fd : FuncDecl)
  | genDeclNode (tok : Tok) (specs : List Spec)
  | specNode (s : Spec)
  | exprNode (e : Expr)
  | badNode

/-- The ordered expression subtrees `ast.Inspect` traverses below a
specification: the declared type and, for value specs, the initializer
expressions (name identifiers contribute nothing to either walk). -/
def Spec.exprs : Spec → List Expr
  | .typeSpec _ t _ _ => [t]
  | .valueSpec _ t vs _ _ => t.toList ++ vs
  | .importSpec _ _ => []

/-- The ordered expression subtrees `ast.Inspect` traverses below a node. -/
def Node.walkedExprs : Node → List Expr
  | .funcDeclNode fd => fd.recv.getD [] ++ fd.rest
  | .genDeclNode _ specs => specs.flatMap Spec.exprs
  | .specNode s => s.exprs
  | .exprNode e => [e]
  | .badNode => []

/-- The `ast.Node` view of a top-level declaration (the extractor passes the
declaration itself to the analyzer and the rewriter). -/
def Decl.toNode : Decl → Node
  | .funcDecl fd _ _ => .funcDeclNode fd
  | .genDecl tok specs _ _ => .genDeclNode tok specs
  | .badDecl _ _ => .badNode

/-- The raw (pre-deduplication) symbol occurrence list of a node's subtree. -/
def collectSymsNode (n : Node) (info : Info) : List String :=
  n.walkedExprs.flatMap (collectSymE info)

/-- `analyzer.ExtractAccessedSymbols`: nil node or nil type information
yields the empty result; otherwise the deduplicated (`map[string]bool`)
occurrence set, lexically sorted (`sort.Strings`). -/
def ExtractAccessedSymbols (node : Option Node) (info : Option Info) : List String :=
  match node, info with
  | some n, some i => ((collectSymsNode n i).dedup).insertionSort (fun a b => a ≤ b)
  | _, _ => []

/-- Left-to-right, non-overlapping scan underlying `strings.ReplaceAll`.
The first argument counts characters still to be skipped after a match was
emitted (a match consumes `pat.length` characters at once, so after emitting
the replacement the scan skips the remaining `pat.length - 1` characters of
the matched occurrence). -/
def replaceScan (pat rep : List Char) : Nat → List Char → List Char
  | _ + 1, [] => []
  | skip + 1, _ :: rest => replaceScan pat rep skip rest
  | 0, [] => []
  | 0, c :: rest =>
    if pat.isPrefixOf (c :: rest) then rep ++ replaceScan pat rep (pat.length - 1) rest
    else c :: replaceScan pat rep 0 rest

/-- `strings.ReplaceAll(s, old, new)`: replace every non-overlapping
occurrence of `old` in `s` by `new`, scanning left to right.  (Go treats an
empty `old` specially, inserting `new` between characters; every call site
in the source passes a pattern ending in `"."`, so that case is unreachable
and the model returns `s` there.) -/
def stringsReplaceAll (s old new : String) : String :=
  if old.data.isEmpty then s else String.mk (replaceScan old.data new.data 0 s.data)

/-- Assignment `m[k] = v` on a Go `map[string]string`, modelled on an
association list with distinct keys. -/
def assocUpdate (l : List (String × String)) (k v : String) : List (String × String) :=
  match l with
  | [] => [(k, v)]
  | (k', v') :: rest => if k' = k then (k, v) :: rest else (k', v') :: assocUpdate rest k v

/-- Lookup `m[k]` on a Go `map[string]string`, modelled on an association
list. -/
def assocGet (l : List (String × String)) (k : String) : Option String :=
  match l with
  | [] => none
  | (k', v) :: rest => if k' = k then some v else assocGet rest k

/-- The `replacements` map built by the discovery walk of
`ApplyQualifierReplacements`: each discovered `(alias, fullImportPath)` pair
is written into the map in walk order (`replacements[ident.Name] = path`). -/
def discoverRepl (n : Node) (info : Info) : List (String × String) :=
  (n.walkedExprs.flatMap (collectReplE info)).foldl
    (fun acc p => assocUpdate acc p.1 p.2) []

/-- The collision-proof placeholder token for the i-th discovered alias
(`placeholderPrefix + strconv.Itoa(i) + "__"`). -/
def placeholderFor (i : Nat) : String :=
  "__GO_QUALIFIER_TEMP_" ++ toString i ++ "__"

/-- `transform.ApplyQualifierReplacements`: discover alias-to-import-path
pairs in the node's subtree, then rewrite `chunkCode` in two phases through
unique placeholders, processing longest-alias-first (then
longest-placeholder-first).  Nil node or nil type information, or an empty
replacement map, returns the input unchanged.  The Go `range` over the
`replacements` map assigns placeholder indices in unspecified order; the
model fixes discovery order, which only renames placeholders. -/
def ApplyQualifierReplacements (chunkCode : String) (node : Option Node) (info : Option Info) : String :=
  match node, info with
  | some n, some i =>
    let replacements := discoverRepl n i
    if replacements.isEmpty then chunkCode
    else
      let indexed := replacements.enum
      let tempMap := indexed.map (fun p => (p.2.1, placeholderFor p.1))
      let finalMap := indexed.map (fun p => (placeholderFor p.1, p.2.2))
      let sortedOldQualifiers :=
        (tempMap.map Prod.fst).insertionSort (fun a b => b.length ≤ a.length)
      let code1 := sortedOldQualifiers.foldl
        (fun code q =>
          match assocGet tempMap q with
          | some ph => stringsReplaceAll code (q ++ ".") (ph ++ ".")
          | none => code) chunkCode
      let sortedPlaceholders :=
        (finalMap.map Prod.fst).insertionSort (fun a b => b.length ≤ a.length)
      sortedPlaceholders.foldl
        (fun code ph =>
          match assocGet finalMap ph with
          | some fullPath => stringsReplaceAll code (ph ++ ".") (fullPath ++ ".")
          | none => code) code1
  | _, _ => chunkCode

/-- A metadata value stored under a `map[string]interface{}` key: the source
stores strings, the vendored flag, and the accessed-symbols string slice. -/
inductive MetaVal where
  | str (s : String)
  | boolV (b : Bool)
  | strList (l : List String)
deriving DecidableEq

/-- A chunk's `map[string]interface{}` metadata, modelled as an association
list with distinct keys (insertion order stands in for Go's unordered map). -/
abbrev Metadata := List (String × MetaVal)

/-- Assignment `m[k] = v` on a metadata map. -/
def mset (m : Metadata) (k : String) (v : MetaVal) : Metadata :=
  match m with
  | [] => [(k, v)]
  | (k', v') :: rest => if k' = k then (k, v) :: rest else (k', v') :: mset rest k v

/-- Lookup `m[k]` on a metadata map. -/
def mget (m : Metadata) (k : String) : Option MetaVal :=
  match m with
  | [] => none
  | (k', v') :: rest => if k' = k then some v' else mget rest k

/-- `types.ChromaDocument`: one extracted chunk (identifier, literal text,
metadata mapping). -/
structure ChromaDocument where
  id : String
  document : String
  metadata : Metadata
deriving DecidableEq

/-- The filesystem seen through `ioutil.ReadFile`: `none` is a read error. -/
abbrev FS := String → Option String

/-- The chunk identifier `fmt.Sprintf("%s:%d-%d-%s", filePath,
startPos.Line, endPos.Line, name)`. -/
def mkChunkId (filePath : String) (startLine endLine : Nat) (name : String) : String :=
  filePath ++ ":" ++ toString startLine ++ "-" ++ toString endLine ++ "-" ++ name

/-- The Go string slice `s[a:b]`; call sites guard `0 ≤ a ≤ b ≤ len(s)`. -/
def goSlice (s : String) (a b : Int) : String :=
  String.mk ((s.data.take b.toNat).drop a.toNat)

/-- The span-validity guard `startOffset < 0 || endOffset > len || startOffset > endOffset`
shared by the file-level and specification-level slicing sites. -/
def invalidSpan (startOffset endOffset : Int) (len : Nat) : Bool :=
  startOffset < 0 ∨ endOffset > (len : Int) ∨ startOffset > endOffset

/-- `parser.processFunctionDeclaration`: one chunk per function or method
declaration.  A receiver turns the entity into a method, records the
receiver's type text and prefixes it to the entity name; the identifier
always ends in the bare function name (`funcDecl.Name.Name`). -/
def processFunctionDeclaration (fd : FuncDecl) (info : Info) (declChunkCode : String)
    (metadata : Metadata) (filePath : String) (startPos endPos : Position) :
    Option ChromaDocument :=
  let md := mset metadata "entity_type" (.str "function")
  let md := mset md "entity_name" (.str fd.name)
  let md :=
    match fd.recv with
    | some (t :: _) =>
      let receiverType := GetTypeString t info
      let md := mset md "entity_type" (.str "method")
      let md := mset md "receiver_type" (.str receiverType)
      mset md "entity_name" (.str (receiverType ++ "." ++ fd.name))
    | _ => md
  let finalChunkCode :=
    ApplyQualifierReplacements declChunkCode (some (.funcDeclNode fd)) (some info)
  some { id := mkChunkId filePath startPos.line endPos.line fd.name
       , document := finalChunkCode
       , metadata := md }

/-- `parser.processTypeSpecification`: one chunk per type binding.  Sets the
entity name and the type category, re-reads the file, slices the
specification's own span under the validity guard, and rewrites qualifiers.
The returned path list records the `ioutil.ReadFile` call. -/
def processTypeSpecification (name : String) (typ : Expr) (info : Info)
    (specMetadata : Metadata) (filePath : String) (specStartPos specEndPos : Position)
    (fs : FS) : Option ChromaDocument × List String :=
  let entityName := name
  let md := mset specMetadata "entity_name" (.str entityName)
  let md :=
    match typ with
    | .structT _ _ => mset md "type_category" (.str "struct")
    | .interfaceT _ => mset md "type_category" (.str "interface")
    | _ => mset md "type_category" (.str "alias_or_basic")
  match fs filePath with
  | none => (none, [filePath])
  | some content =>
    if invalidSpan specStartPos.offset specEndPos.offset content.length then
      (none, [filePath])
    else
      let specChunkCode := goSlice content specStartPos.offset specEndPos.offset
      let finalChunkCode :=
        ApplyQualifierReplacements specChunkCode
          (some (.specNode (.typeSpec name typ specStartPos specEndPos))) (some info)
      (some { id := mkChunkId filePath specStartPos.line specEndPos.line entityName
            , document := finalChunkCode
            , metadata := md }, [filePath])

/-- `parser.processValueSpecification`: one chunk per const/var binding
statement.  The entity name is the comma-joined name list; the `type` key
comes from the explicit annotation if present, else from the resolved type
of the first initializer if any.  Re-reads the file and slices the
specification's own span under the validity guard. -/
def processValueSpecification (names : List String) (typ : Option Expr) (values : List Expr)
    (info : Info) (specMetadata : Metadata) (filePath : String)
    (specStartPos specEndPos : Position) (fs : FS) :
    Option ChromaDocument × List String :=
  let entityName := String.intercalate ", " names
  let md := mset specMetadata "entity_name" (.str entityName)
  let md :=
    match typ with
    | some t => mset md "type" (.str (GetTypeString t info))
    | none =>
      match values with
      | v :: _ =>
        match info.typeOf v with
        | some tv => mset md "type" (.str tv)
        | none => md
      | [] => md
  match fs filePath with
  | none => (none, [filePath])
  | some content =>
    if invalidSpan specStartPos.offset specEndPos.offset content.length then
      (none, [filePath])
    else
      let specChunkCode := goSlice content specStartPos.offset specEndPos.offset
      let finalChunkCode :=
        ApplyQualifierReplacements specChunkCode
          (some (.specNode (.valueSpec names typ values specStartPos specEndPos)))
          (some info)
      (some { id := mkChunkId filePath specStartPos.line specEndPos.line entityName
            , document := finalChunkCode
            , metadata := md }, [filePath])

/-- `parser.processSpecification`: copies the group-level metadata for this
specification (the Go `for k, v := range baseMetadata` copy loop; with the
value-semantic metadata model the copy is the value itself — the
reference-level copy is studied in the heap-instrumented model below) and
dispatches on the specification kind; shapes other than type and value
specifications yield no chunk. -/
def processSpecification (spec : Spec) (info : Info) (baseMetadata : Metadata)
    (filePath : String) (fs : FS) : Option ChromaDocument × List String :=
  let specMetadata := baseMetadata
  match spec with
  | .typeSpec name typ p e =>
    processTypeSpecification name typ info specMetadata filePath p e fs
  | .valueSpec names typ values p e =>
    processValueSpecification names typ values info specMetadata filePath p e fs
  | .importSpec _ _ => (none, [])

/-- `parser.processGeneralDeclaration`: import groups produce no chunks;
otherwise each specification in the group is processed independently, with
its own span positions resolved from the position index. -/
def processGeneralDeclaration (tok : Tok) (specs : List Spec) (info : Info)
    (metadata : Metadata) (filePath : String) (fs : FS) :
    List ChromaDocument × List String :=
  if tok = .importTok then ([], [])
  else
    let results := specs.map (fun spec => processSpecification spec info metadata filePath fs)
    ((results.map (fun r => r.1.toList)).flatten, (results.map Prod.snd).flatten)

/-- `parser.processDeclaration`: dispatch on the declaration kind
(function/method, declaration group, or ignored shape). -/
def processDeclaration (decl : Decl) (info : Info) (declChunkCode : String)
    (metadata : Metadata) (filePath : String) (fs : FS) :
    List ChromaDocument × List String :=
  match decl with
  | .funcDecl fd p e =>
    ((processFunctionDeclaration fd info declChunkCode metadata filePath p e).toList, [])
  | .genDecl tok specs _ _ =>
    processGeneralDeclaration tok specs info metadata filePath fs
  | .badDecl _ _ => ([], [])

/-- The body of the declaration loop of `parser.processFileDeclarations`:
build the group-level metadata, resolve the declaration's span, skip it when
the span is invalid, slice the chunk body, attach the accessed symbols, and
dispatch. -/
def processOneDecl (decl : Decl) (info : Info) (filePath packageName : String)
    (isVendored : Bool) (originalFileContentString : String) (fs : FS) :
    List ChromaDocument × List String :=
  let metadata := mset (mset (mset [] "file_path" (.str filePath))
    "package_name" (.str packageName)) "is_vendored" (.boolV isVendored)
  let startPos := decl.pos
  let endPos := decl.endp
  if invalidSpan startPos.offset endPos.offset originalFileContentString.length then
    ([], [])
  else
    let declChunkCode := goSlice originalFileContentString startPos.offset endPos.offset
    let metadata := mset metadata "accessed_symbols"
      (.strList (ExtractAccessedSymbols (some decl.toNode) (some info)))
    processDeclaration decl info declChunkCode metadata filePath fs

/-- `parser.processFileDeclarations`: process the file's top-level
declarations in order, concatenating the produced chunks (and read logs). -/
def processFileDeclarations (decls : List Decl) (info : Info)
    (filePath packageName : String) (isVendored : Bool)
    (originalFileContentString : String) (fs : FS) :
    List ChromaDocument × List String :=
  let results := decls.map
    (fun d => processOneDecl d info filePath packageName isVendored originalFileContentString fs)
  ((results.map Prod.fst).flatten, (results.map Prod.snd).flatten)

/-- One source file of a compilation unit: the path the shared position
index reports for it (`pkg.Fset.File(file.Pos()).Name()`) and its parsed
top-level declarations. -/
structure FileData where
  path : String
  decls : List Decl

/-- The body of the file loop of `parser.processPackage`: read the file's
raw bytes (skip the file on error), compute the vendored flag from the
absolute vendor path prefix, and process the declarations. -/
def processFile (file : FileData) (info : Info) (packageName : String)
    (absVendorPath : String) (fs : FS) : List ChromaDocument × List String :=
  match fs file.path with
  | none => ([], [file.path])
  | some originalFileContentString =>
    let isVendored := (absVendorPath ++ "/").isPrefixOf file.path
    let (chunks, log) := processFileDeclarations file.decls info file.path packageName
      isVendored originalFileContentString fs
    (chunks, file.path :: log)

/-- `parser.processPackage`: process each syntax file of the unit; the
function's error result is the literal `nil` (`return chunks, nil`), so the
`Except` is always `ok`.  (`filepath.Separator` is `/` on the target
platform.) -/
def processPackage (files : List FileData) (info : Info) (packageName : String)
    (absVendorPath : String) (fs : FS) :
    Except String (List ChromaDocument × List String) :=
  let results := files.map (fun f => processFile f info packageName absVendorPath fs)
  .ok ((results.map Prod.fst).flatten, (results.map Prod.snd).flatten)

/-- A compilation unit as produced by `golang.org/x/tools/go/packages`: the
identity string, the package name, the nilable type-resolution table
(`pkg.TypesInfo`), the nilable syntax list (`pkg.Syntax`, with the shared
position index precomposed into each declaration's `Position` fields), and
whether the shared file set pointer is non-nil (`pkg.Fset`). -/
structure Package where
  id : String
  name : String
  typesInfo : Option Info
  syntaxFiles : Option (List FileData)
  hasFset : Bool

/-- `parser.ParsePackages`: resolve the vendor directory's absolute path
once (the only fatal failure); skip units lacking type information, syntax,
or the file set; a per-unit processing error would be logged and skipped,
but `processPackage` never returns one; concatenate all chunks.
`filepath.Join(projectPath, "vendor")` and `filepath.Abs` are modelled by
string concatenation and the environment function `abs`. -/
def ParsePackages (abs : String → Option String) (allPkgs : List Package)
    (projectPath : String) (fs : FS) : Except String (List ChromaDocument) :=
  match abs (projectPath ++ "/vendor") with
  | none => .error "failed to resolve absolute path for vendor directory"
  | some absVendorPath =>
    .ok ((allPkgs.map (fun pkg =>
      match pkg.typesInfo, pkg.syntaxFiles, pkg.hasFset with
      | some info, some files, true =>
        match processPackage files info pkg.name absVendorPath fs with
        | .ok (chunks, _) => chunks
        | .error _ => []
      | _, _, _ => [])).flatten)

/-- `loader.LoadGoProject`: two front-end passes (project root and vendor
directory) are merged with first-occurrence-wins deduplication by unit
identity; each pass's load error is only logged, and the function's error
result is the literal `nil`.  The passes' results and errors are inputs
here, since the front-end itself is outside the core. -/
def LoadGoProject (mainPkgs vendorPkgs : List Package)
    (_mainLoadErr _vendorLoadErr : Option String) : Except String (List Package) :=
  let s0 : List Package × List String := ([], [])
  let s1 := mainPkgs.foldl
    (fun acc p => if p.id ∈ acc.2 then acc else (acc.1 ++ [p], p.id :: acc.2)) s0
  let s2 := vendorPkgs.foldl
    (fun acc p => if p.id ∈ acc.2 then acc else (acc.1 ++ [p], p.id :: acc.2)) s1
  .ok s2.1

/-!
Heap-instrumented model of the declaration-group path.

Go metadata maps are reference values: `processSpecification` explicitly
copies the group-level map into a fresh map per specification, and the
per-binding writes then go through that fresh reference.  To state the
claim that these writes never reach a sibling binding's map, the functions
below repeat the source's specification path with metadata maps held in an
explicit heap (`Heap`), chunk records holding references (`ChunkRef`), and
assignments performed through the heap.
-/

/-- A heap of metadata maps; a reference is an index. -/
abbrev Heap := List Metadata

/-- Allocate a fresh metadata map (`make(map[string]interface{})` followed by
the copy loop's writes), returning the new heap and the fresh reference. -/
def hAlloc (h : Heap) (m : Metadata) : Heap × Nat :=
  (h ++ [m], h.length)

/-- Dereference a metadata map. -/
def hGet (h : Heap) (r : Nat) : Metadata :=
  h.getD r []

/-- Overwrite the metadata map behind a reference. -/
def hSet (h : Heap) (r : Nat) (m : Metadata) : Heap :=
  h.set r m

/-- A chunk holding a reference to its metadata map instead of a value. -/
structure ChunkRef where
  id : String
  document : String
  metaRef : Nat
deriving DecidableEq

/-- The `type_category` classification of `processTypeSpecification`
(struct, interface, or anything else). -/
def typeCategoryOf (typ : Expr) : String :=
  match typ with
  | .structT _ _ => "struct"
  | .interfaceT _ => "interface"
  | _ => "alias_or_basic"

/-- Heap-instrumented `processTypeSpecification`: the per-binding writes
(`entity_name`, `type_category`) go through the specification's metadata
reference `r`. -/
def processTypeSpecificationH (name : String) (typ : Expr) (info : Info) (r : Nat)
    (filePath : String) (specStartPos specEndPos : Position) (fs : FS) (h : Heap) :
    Option ChunkRef × Heap :=
  let entityName := name
  let h := hSet h r (mset (hGet h r) "entity_name" (.str entityName))
  let h := hSet h r (mset (hGet h r) "type_category" (.str (typeCategoryOf typ)))
  match fs filePath with
  | none => (none, h)
  | some content =>
    if invalidSpan specStartPos.offset specEndPos.offset content.length then (none, h)
    else
      let specChunkCode := goSlice content specStartPos.offset specEndPos.offset
      let finalChunkCode :=
        ApplyQualifierReplacements specChunkCode
          (some (.specNode (.typeSpec name typ specStartPos specEndPos))) (some info)
      (some { id := mkChunkId filePath specStartPos.line specEndPos.line entityName
            , document := finalChunkCode
            , metaRef := r }, h)

/-- Heap-instrumented `processValueSpecification`: the per-binding writes
(`entity_name`, `type`) go through the specification's metadata
reference `r`. -/
def processValueSpecificationH (names : List String) (typ : Option Expr)
    (values : List Expr) (info : Info) (r : Nat) (filePath : String)
    (specStartPos specEndPos : Position) (fs : FS) (h : Heap) :
    Option ChunkRef × Heap :=
  let entityName := String.intercalate ", " names
  let h := hSet h r (mset (hGet h r) "entity_name" (.str entityName))
  let h :=
    match typ with
    | some t => hSet h r (mset (hGet h r) "type" (.str (GetTypeString t info)))
    | none =>
      match values with
      | v :: _ =>
        match info.typeOf v with
        | some tv => hSet h r (mset (hGet h r) "type" (.str tv))
        | none => h
      | [] => h
  match fs filePath with
  | none => (none, h)
  | some content =>
    if invalidSpan specStartPos.offset specEndPos.offset content.length then (none, h)
    else
      let specChunkCode := goSlice content specStartPos.offset specEndPos.offset
      let finalChunkCode :=
        ApplyQualifierReplacements specChunkCode
          (some (.specNode (.valueSpec names typ values specStartPos specEndPos)))
          (some info)
      (some { id := mkChunkId filePath specStartPos.line specEndPos.line entityName
            , document := finalChunkCode
            , metaRef := r }, h)

/-- Heap-instrumented `processSpecification`: allocate a fresh map holding a
copy of the group-level metadata (`for k, v := range baseMetadata` over a
fresh `make(...)`), then dispatch; per-binding writes go through the fresh
reference only. -/
def processSpecificationH (spec : Spec) (info : Info) (baseRef : Nat)
    (filePath : String) (fs : FS) (h : Heap) : Option ChunkRef × Heap :=
  let alloc := hAlloc h (hGet h baseRef)
  let h1 := alloc.1
  let r := alloc.2
  match spec with
  | .typeSpec name typ p e => processTypeSpecificationH name typ info r filePath p e fs h1
  | .valueSpec names typ values p e =>
    processValueSpecificationH names typ values info r filePath p e fs h1
  | .importSpec _ _ => (none, h1)

/-- The specification loop of the heap-instrumented
`processGeneralDeclaration`, threading the heap left to right. -/
def processSpecsH (specs : List Spec) (info : Info) (baseRef : Nat)
    (filePath : String) (fs : FS) (h : Heap) : List ChunkRef × Heap :=
  match specs with
  | [] => ([], h)
  | s :: rest =>
    let r1 := processSpecificationH s info baseRef filePath fs h
    let r2 := processSpecsH rest info baseRef filePath fs r1.2
    (r1.1.toList ++ r2.1, r2.2)

/-- Heap-instrumented `processGeneralDeclaration`. -/
def processGeneralDeclarationH (tok : Tok) (specs : List Spec) (info : Info)
    (baseRef : Nat) (filePath : String) (fs : FS) (h : Heap) :
    List ChunkRef × Heap :=
  if tok = .importTok then ([], h)
  else processSpecsH specs info baseRef filePath fs h

/-- The entity name a type or value binding records (declared type name, or
the comma-joined bound-name list); the specification dispatch never emits a
chunk for other shapes. -/
def specEntityName : Spec → String
  | .typeSpec name _ _ _ => name
  | .valueSpec names _ _ _ _ => String.intercalate ", " names
  | .importSpec _ _ => ""

/-- Whether a specification is a type or value binding (the shapes that
trigger the per-specification file re-read). -/
def Spec.isTypeOrValue : Spec → Bool
  | .typeSpec _ _ _ _ => true
  | .valueSpec _ _ _ _ _ => true
  | .importSpec _ _ => false

/-- Number of `ioutil.ReadFile` calls a top-level declaration triggers
beyond the file-level read: one per type/value specification of a
non-import group whose enclosing declaration passed the span guard. -/
def declSpecReads (content : String) (d : Decl) : Nat :=
  if invalidSpan d.pos.offset d.endp.offset content.length then 0
  else
    match d with
    | .genDecl tok specs _ _ =>
      if tok = .importTok then 0 else (specs.filter Spec.isTypeOrValue).length
    | _ => 0

/-- Number of per-specification re-reads a whole file triggers. -/
def fileSpecReads (content : String) (decls : List Decl) : Nat :=
  (decls.map (declSpecReads content)).sum

/-- Amended identifier shape (stated from the spec sentence, corrected by
the method counterexample): a chunk's identifier is
`<file_path>:<start>-<end>-<n>` where `n` is the entity name for type and
value bindings and for plain functions, while for a method `n` is the bare
function name and the entity name is `<receiver_type>.<n>`. -/
def specIdNameConsistent (c : ChromaDocument) : Prop :=
  ∃ p s e n en, mget c.metadata "file_path" = some (.str p) ∧
    c.id = mkChunkId p s e n ∧
    mget c.metadata "entity_name" = some (.str en) ∧
    (en = n ∨
      (mget c.metadata "entity_type" = some (.str "method") ∧
        ∃ r, mget c.metadata "receiver_type" = some (.str r) ∧ en = r ++ "." ++ n))

/-!
Concrete inputs used by the counterexamples and witnesses below.
-/

/-- A type-resolution table with no resolved types and no used objects. -/
def exInfoNone : Info :=
  { typeOf := fun _ => none, uses := fun _ => none }

/-- A table for the collision test: identifier 1 is the alias `ab` bound to
the import path `pkg/ab`, identifier 2 the alias `a` bound to `pkg/a`. -/
def exInfoC2 : Info :=
  { typeOf := fun _ => none
  , uses := fun id =>
      if id = 1 then some (.pkgName "pkg/ab")
      else if id = 2 then some (.pkgName "pkg/a") else none }

/-- A function-declaration subtree containing the uses `ab.Foo` and `a.Bar`. -/
def exNodeC2 : Node :=
  .funcDeclNode
    { name := "F", recv := none
    , rest := [.sel (.ident 1 "ab") "Foo", .sel (.ident 2 "a") "Bar"] }

/-- A table where identifier 5 is the package name `fmt`, whose local alias
equals its full import path. -/
def exInfoFmt : Info :=
  { typeOf := fun _ => none
  , uses := fun id => if id = 5 then some (.pkgName "fmt") else none }

/-- A subtree using `fmt.Println` (alias already equals the import path). -/
def exNodeFmt : Node :=
  .exprNode (.sel (.ident 5 "fmt") "Println")

/-- The method declaration `func (f *Foo) Bar()`. -/
def exMethodFd : FuncDecl :=
  { name := "Bar", recv := some [.star (.ident 0 "Foo")], rest := [] }

/-- A single-file package containing only the method `Bar`. -/
def exMethodPkg : Package :=
  { id := "example.com/m", name := "m"
  , typesInfo := some exInfoNone
  , syntaxFiles := some [{ path := "f.go", decls := [.funcDecl exMethodFd ⟨1, 0⟩ ⟨1, 19⟩] }]
  , hasFset := true }

/-- The filesystem backing the method package. -/
def exMethodFs : FS :=
  fun p => if p = "f.go" then some "func (f *Foo) Bar()" else none

/-- A file with a single var binding (for the read-count test). -/
def exVarFile : FileData :=
  { path := "g.go"
  , decls := [.genDecl .varTok [.valueSpec ["x"] none [] ⟨1, 0⟩ ⟨1, 9⟩] ⟨1, 0⟩ ⟨1, 9⟩] }

/-- The filesystem backing the var file. -/
def exVarFs : FS :=
  fun p => if p = "g.go" then some "var x = 1" else none

/-- A declaration whose span is invalid (start offset beyond end offset). -/
def exInvalidDecl : Decl :=
  .badDecl ⟨1, 5⟩ ⟨1, 2⟩

/-- A filesystem on which every read fails. -/
def exEmptyFs : FS :=
  fun _ => none

/-- An interface field chain declaring one method `M`. -/
def exIfaceMethods : Fields :=
  .fcons ["M"] (.funcT .fnone .fnone) .fnil

/-- First type binding `A int` of the two-binding group test. -/
def exSpecA : Spec :=
  .typeSpec "A" (.ident 10 "int") ⟨1, 6⟩ ⟨1, 11⟩

/-- Second type binding `B int` of the two-binding group test. -/
def exSpecB : Spec :=
  .typeSpec "B" (.ident 11 "int") ⟨1, 12⟩ ⟨1, 17⟩

/-- The filesystem backing the two-binding group test. -/
def exGroupFs : FS :=
  fun p => if p = "t.go" then some "type (A int B int)" else none

/-- A heap holding the group-level metadata at reference 0. -/
def exBaseHeap : Heap :=
  [[("file_path", .str "t.go"), ("package_name", .str "m")]]

/-- The chunk the pipeline produces for the method package: the identifier
ends in the bare function name while the entity name carries the receiver
prefix. -/
def exMethodChunk : ChromaDocument :=
  { id := "f.go:1-1-Bar"
  , document := "func (f *Foo) Bar()"
  , metadata :=
      [ ("file_path", .str "f.go")
      , ("package_name", .str "m")
      , ("is_vendored", .boolV false)
      , ("accessed_symbols", .strList [])
      , ("entity_type", .str "method")
      , ("entity_name", .str "*Foo.Bar")
      , ("receiver_type", .str "*Foo") ] }


/-- A unit missing its type table, syntax, and file set (skipped by the
extractor). -/
def exBadPkg : Package :=
  { id := "bad", name := "bad", typesInfo := none, syntaxFiles := none, hasFset := false }

/-!
Theorems.
-/

/-- Reading a key just written into a metadata map yields the written value. -/
theorem mget_mset_self (m : Metadata) (k : String) (v : MetaVal) :
    mget (mset m k v) k = some v := by
  induction m with
  | nil => simp [mset, mget]
  | cons p rest ih =>
    obtain ⟨k', v'⟩ := p
    by_cases h : k' = k
    · simp [mset, mget, h]
    · simp [mset, mget, h, ih]

/-- Writing one key into a metadata map leaves every other key unchanged. -/
theorem mget_mset_ne (m : Metadata) (k k' : String) (v : MetaVal) (h : k' ≠ k) :
    mget (mset m k v) k' = mget m k' := by
  have hk : k ≠ k' := fun hx => h hx.symm
  induction m with
  | nil => simp [mset, mget, hk]
  | cons p rest ih =>
    obtain ⟨k0, v0⟩ := p
    by_cases h0 : k0 = k
    · subst h0
      simp [mset, mget, hk]
    · simp [mset, mget, h0, ih]

/-- Claim C10: in the structural fallback (no resolved type for the
expression), every interface type literal is rendered as the single token
`interface{}`, whatever methods it declares. -/
theorem C10_interface_literal_fallback (ms : Fields) (info : Info)
    (h : info.typeOf (.interfaceT ms) = none) :
    GetTypeString (.interfaceT ms) info = "interface\x7b\x7d" := by
  rw [GetTypeString, h]

/-- Witness for C10 at an interface literal declaring a method `M`. -/
theorem C10_witness :
    exInfoNone.typeOf (.interfaceT exIfaceMethods) = none ∧
      GetTypeString (.interfaceT exIfaceMethods) exInfoNone = "interface\x7b\x7d" :=
  ⟨rfl, C10_interface_literal_fallback exIfaceMethods exInfoNone rfl⟩

/-- Claim C3: the qualifier rewrite is the identity when the subtree node or
the type-resolution table is absent, and whenever the discovery walk yields
no replacement pairs. -/
theorem C3_rewrite_noop (code : String) (n : Node) (i : Info) :
    ApplyQualifierReplacements code none (some i) = code ∧
    ApplyQualifierReplacements code (some n) none = code ∧
    ApplyQualifierReplacements code none none = code ∧
    (discoverRepl n i = [] → ApplyQualifierReplacements code (some n) (some i) = code) := by
  refine ⟨rfl, rfl, rfl, fun h => ?_⟩
  simp [ApplyQualifierReplacements, h]

/-- Witness for C3 at a subtree whose only alias equals its import path
(`fmt`), so discovery is empty and the text passes through unchanged. -/
theorem C3_witness :
    discoverRepl exNodeFmt exInfoFmt = [] ∧
      ApplyQualifierReplacements "fmt.Println(x)" (some exNodeFmt) (some exInfoFmt) =
        "fmt.Println(x)" :=
  ⟨by decide, (C3_rewrite_noop "fmt.Println(x)" exNodeFmt exInfoFmt).2.2.2 (by decide)⟩

/-- Claim C2: with discovered aliases `ab -> pkg/ab` and `a -> pkg/a`, the
rewrite of `ab.Foo(a.Bar)` is exactly `pkg/ab.Foo(pkg/a.Bar)`: the
longest-alias-first two-phase substitution keeps the shorter alias from
pre-empting the longer one. -/
theorem C2_collision_safety :
    discoverRepl exNodeC2 exInfoC2 = [("ab", "pkg/ab"), ("a", "pkg/a")] ∧
      ApplyQualifierReplacements "ab.Foo(a.Bar)" (some exNodeC2) (some exInfoC2) =
        "pkg/ab.Foo(pkg/a.Bar)" := by
  constructor
  · decide
  · decide

/-- Claim C6: a function declaration with a receiver yields a method chunk
whose receiver type is the Resolver's type text of the receiver's declared
type and whose entity name is that text, a dot, and the function name; a
declaration without a receiver yields a function chunk named by the bare
function name. -/
theorem C6_method_naming (fd : FuncDecl) (info : Info) (code : String)
    (md : Metadata) (fp : String) (sp ep : Position) :
    (∀ t rest, fd.recv = some (t :: rest) →
      ∃ c, processFunctionDeclaration fd info code md fp sp ep = some c ∧
        mget c.metadata "entity_type" = some (.str "method") ∧
        mget c.metadata "receiver_type" = some (.str (GetTypeString t info)) ∧
        mget c.metadata "entity_name" =
          some (.str (GetTypeString t info ++ "." ++ fd.name))) ∧
    (fd.recv = none →
      ∃ c, processFunctionDeclaration fd info code md fp sp ep = some c ∧
        mget c.metadata "entity_type" = some (.str "function") ∧
        mget c.metadata "entity_name" = some (.str fd.name)) := by
  constructor
  · intro t rest hrecv
    have hres : processFunctionDeclaration fd info code md fp sp ep = some
        { id := mkChunkId fp sp.line ep.line fd.name
        , document := ApplyQualifierReplacements code (some (.funcDeclNode fd)) (some info)
        , metadata := mset (mset (mset (mset (mset md "entity_type" (.str "function"))
            "entity_name" (.str fd.name)) "entity_type" (.str "method"))
            "receiver_type" (.str (GetTypeString t info)))
            "entity_name" (.str (GetTypeString t info ++ "." ++ fd.name)) } := by
      simp [processFunctionDeclaration, hrecv]
    refine ⟨_, hres, ?_, ?_, ?_⟩
    · rw [mget_mset_ne _ _ _ _ (by decide), mget_mset_ne _ _ _ _ (by decide),
        mget_mset_self]
    · rw [mget_mset_ne _ _ _ _ (by decide), mget_mset_self]
    · rw [mget_mset_self]
  · intro hrecv
    have hres : processFunctionDeclaration fd info code md fp sp ep = some
        { id := mkChunkId fp sp.line ep.line fd.name
        , document := ApplyQualifierReplacements code (some (.funcDeclNode fd)) (some info)
        , metadata := mset (mset md "entity_type" (.str "function"))
            "entity_name" (.str fd.name) } := by
      simp [processFunctionDeclaration, hrecv]
    refine ⟨_, hres, ?_, ?_⟩
    · rw [mget_mset_ne _ _ _ _ (by decide), mget_mset_self]
    · rw [mget_mset_self]

/-- Witness for C6 at the method `func (f *Foo) Bar()` (receiver type text
`*Foo`, entity name `*Foo.Bar`, consistent with the pointer rule). -/
theorem C6_witness :
    exMethodFd.recv = some (Expr.star (.ident 0 "Foo") :: []) ∧
    ∃ c, processFunctionDeclaration exMethodFd exInfoNone "func (f *Foo) Bar()" []
        "f.go" ⟨1, 0⟩ ⟨1, 19⟩ = some c ∧
      mget c.metadata "entity_type" = some (.str "method") ∧
      mget c.metadata "receiver_type" = some (.str (GetTypeString (.star (.ident 0 "Foo")) exInfoNone)) ∧
      mget c.metadata "entity_name" =
        some (.str (GetTypeString (.star (.ident 0 "Foo")) exInfoNone ++ "." ++ exMethodFd.name)) :=
  ⟨rfl, (C6_method_naming exMethodFd exInfoNone "func (f *Foo) Bar()" [] "f.go" ⟨1, 0⟩ ⟨1, 19⟩).1
    (.star (.ident 0 "Foo")) [] rfl⟩

/-- Claim C7: the accessed-symbols operation returns a sorted, duplicate-free
list whose members are exactly the symbols the walk discovers, and a nil
node or nil type-resolution table yields the empty list (the operation has
no error outcome). -/
theorem C7_accessed_symbols (n : Node) (i : Info) :
    (ExtractAccessedSymbols (some n) (some i)).Sorted (fun a b => a ≤ b) ∧
    (ExtractAccessedSymbols (some n) (some i)).Nodup ∧
    (∀ s, s ∈ ExtractAccessedSymbols (some n) (some i) ↔ s ∈ collectSymsNode n i) ∧
    ExtractAccessedSymbols none (some i) = [] ∧
    ExtractAccessedSymbols (some n) none = [] ∧
    ExtractAccessedSymbols none none = [] := by
  refine ⟨?_, ?_, ?_, rfl, rfl, rfl⟩
  · exact List.sorted_insertionSort _ _
  · exact (List.perm_insertionSort _ _).nodup_iff.mpr (List.nodup_dedup _)
  · intro s
    exact ((List.perm_insertionSort _ _).mem_iff).trans (List.mem_dedup)

/-- Splitting off the head of the declaration loop. -/
theorem processFileDeclarations_cons (d : Decl) (rest : List Decl) (info : Info)
    (fp pn : String) (iv : Bool) (content : String) (fs : FS) :
    processFileDeclarations (d :: rest) info fp pn iv content fs =
      ((processOneDecl d info fp pn iv content fs).1 ++
         (processFileDeclarations rest info fp pn iv content fs).1,
       (processOneDecl d info fp pn iv content fs).2 ++
         (processFileDeclarations rest info fp pn iv content fs).2) := by
  simp [processFileDeclarations]

/-- Claim C8: a declaration is sliced only under the span guard
`0 ≤ start ≤ end ≤ len`; a declaration failing the guard is skipped and
contributes nothing, leaving the remaining declarations untouched. -/
theorem C8_span_guard (decls : List Decl) (d : Decl) (info : Info)
    (fp pn : String) (iv : Bool) (content : String) (fs : FS) :
    (invalidSpan d.pos.offset d.endp.offset content.length = true →
      processOneDecl d info fp pn iv content fs = ([], [])) ∧
    processFileDeclarations decls info fp pn iv content fs =
      processFileDeclarations
        (decls.filter (fun d0 => !invalidSpan d0.pos.offset d0.endp.offset content.length))
        info fp pn iv content fs ∧
    (invalidSpan d.pos.offset d.endp.offset content.length = false →
      0 ≤ d.pos.offset ∧ d.pos.offset ≤ d.endp.offset ∧
        d.endp.offset ≤ (content.length : Int)) := by
  refine ⟨fun h => by simp [processOneDecl, h], ?_, fun h => ?_⟩
  · induction decls with
    | nil => rfl
    | cons d0 rest ih =>
      by_cases hd : invalidSpan d0.pos.offset d0.endp.offset content.length
      · have hskip : processOneDecl d0 info fp pn iv content fs = ([], []) := by
          simp [processOneDecl, hd]
        rw [processFileDeclarations_cons, hskip]
        simp [List.filter_cons, hd, ih]
      · rw [processFileDeclarations_cons]
        have hf : (d0 :: rest).filter
            (fun d1 => !invalidSpan d1.pos.offset d1.endp.offset content.length) =
            d0 :: rest.filter
              (fun d1 => !invalidSpan d1.pos.offset d1.endp.offset content.length) := by
          simp [List.filter_cons, hd]
        rw [hf, processFileDeclarations_cons, ih]
  · simp only [invalidSpan, decide_eq_false_iff_not, not_or, not_lt] at h
    exact ⟨h.1, h.2.2, h.2.1⟩

/-- Witness for C8: the invalid-span declaration is skipped, and a valid
span satisfies the slicing bounds. -/
theorem C8_witness :
    processOneDecl exInvalidDecl exInfoNone "f.go" "m" false "ab" exEmptyFs = ([], []) ∧
      (0 ≤ (Decl.badDecl ⟨1, 0⟩ ⟨1, 2⟩ : Decl).pos.offset ∧
        (Decl.badDecl ⟨1, 0⟩ ⟨1, 2⟩ : Decl).pos.offset ≤
          (Decl.badDecl ⟨1, 0⟩ ⟨1, 2⟩ : Decl).endp.offset ∧
        (Decl.badDecl ⟨1, 0⟩ ⟨1, 2⟩ : Decl).endp.offset ≤ (("ab" : String).length : Int)) :=
  ⟨(C8_span_guard [] exInvalidDecl exInfoNone "f.go" "m" false "ab" exEmptyFs).1 (by decide),
   (C8_span_guard [] (.badDecl ⟨1, 0⟩ ⟨1, 2⟩) exInfoNone "f.go" "m" false "ab" exEmptyFs).2.2
     (by decide)⟩

/-- Claim C9: the corpus load always returns a nil error (independently of
the front-end pass errors, which are only logged); the extraction returns an
error exactly when the vendor-directory absolute path fails to resolve;
per-unit processing never errors; and a skipped unit or unreadable file
leaves the chunks of every other unit and file unchanged. -/
theorem C9_error_policy (abs : String → Option String) (pkgs l1 l2 : List Package)
    (bad : Package) (root : String) (fs : FS) (mainPkgs vendorPkgs : List Package)
    (me ve : Option String) (info : Info) (files fl1 fl2 : List FileData)
    (f : FileData) (pn avp : String) :
    (∃ l, LoadGoProject mainPkgs vendorPkgs me ve = Except.ok l) ∧
    LoadGoProject mainPkgs vendorPkgs me ve = LoadGoProject mainPkgs vendorPkgs none none ∧
    ((∃ e, ParsePackages abs pkgs root fs = .error e) ↔ abs (root ++ "/vendor") = none) ∧
    (∃ r, processPackage files info pn avp fs = Except.ok r) ∧
    ((bad.typesInfo = none ∨ bad.syntaxFiles = none ∨ bad.hasFset = false) →
      ParsePackages abs (l1 ++ bad :: l2) root fs = ParsePackages abs (l1 ++ l2) root fs) ∧
    (fs f.path = none →
      (processPackage (fl1 ++ f :: fl2) info pn avp fs).map Prod.fst =
        (processPackage (fl1 ++ fl2) info pn avp fs).map Prod.fst) := by
  refine ⟨⟨_, rfl⟩, rfl, ?_, ⟨_, rfl⟩, fun hbad => ?_, fun hf => ?_⟩
  · rcases habs : abs (root ++ "/vendor") with _ | v
    · simp [ParsePackages, habs]
    · simp [ParsePackages, habs]
  · rcases habs : abs (root ++ "/vendor") with _ | v
    · simp [ParsePackages, habs]
    · have hz : (match bad.typesInfo, bad.syntaxFiles, bad.hasFset with
        | some info, some files, true =>
          match processPackage files info bad.name v fs with
          | .ok (chunks, _) => chunks
          | .error _ => []
        | _, _, _ => ([] : List ChromaDocument)) = [] := by
        rcases hbad with h | h | h <;> rw [h] <;> rcases bad.typesInfo with _ | i <;>
          rcases bad.syntaxFiles with _ | sf <;> rcases bad.hasFset <;> rfl
      simp [ParsePackages, habs, hz]
  · have hfile : processFile f info pn avp fs = ([], [f.path]) := by
      simp [processFile, hf]
    simp [processPackage, hfile, Except.map]

/-- Witness for C9: a unit missing all three tables is skipped without
affecting the run, and an unreadable file drops only its own chunks. -/
theorem C9_witness :
    ParsePackages (fun s => some s) ([] ++ exBadPkg :: []) "/proj" exEmptyFs =
      ParsePackages (fun s => some s) ([] ++ []) "/proj" exEmptyFs ∧
    (processPackage ([] ++ exVarFile :: []) exInfoNone "m" "/v" exEmptyFs).map Prod.fst =
      (processPackage ([] ++ []) exInfoNone "m" "/v" exEmptyFs).map Prod.fst :=
  ⟨(C9_error_policy (fun s => some s) [] [] [] exBadPkg "/proj" exEmptyFs [] [] none none
      exInfoNone [] [] [] exVarFile "m" "/v").2.2.2.2.1 (Or.inl rfl),
   (C9_error_policy (fun s => some s) [] [] [] exBadPkg "/proj" exEmptyFs [] [] none none
      exInfoNone [] [] [] exVarFile "m" "/v").2.2.2.2.2 rfl⟩

/-- A specification's read log: type and value bindings read the file once
each, other shapes read nothing. -/
theorem processSpecification_log (sp : Spec) (info : Info) (md : Metadata)
    (fp : String) (fs : FS) :
    (processSpecification sp info md fp fs).2 =
      if sp.isTypeOrValue then [fp] else [] := by
  cases sp with
  | typeSpec name typ p e =>
    rcases h : fs fp with _ | content <;>
      simp [processSpecification, processTypeSpecification, Spec.isTypeOrValue, h]
    split <;> rfl
  | valueSpec names typ values p e =>
    rcases h : fs fp with _ | content <;>
      simp [processSpecification, processValueSpecification, Spec.isTypeOrValue, h]
    split <;> rfl
  | importSpec p e => rfl

/-- Flattening the per-specification logs of a group yields one read per
type/value binding. -/
theorem flattenSpecLogs (specs : List Spec) (fp : String) :
    ((specs.map (fun sp => if sp.isTypeOrValue then [fp] else [])).flatten) =
      List.replicate (specs.filter Spec.isTypeOrValue).length fp := by
  induction specs with
  | nil => rfl
  | cons s rest ih =>
    by_cases hs : s.isTypeOrValue <;>
      simp [List.filter_cons, hs, ih, List.replicate_succ]

/-- A top-level declaration's read log: every read is of the file's own
path, one per type/value binding of a surviving non-import group. -/
theorem processOneDecl_log (d : Decl) (info : Info) (fp pn : String) (iv : Bool)
    (content : String) (fs : FS) :
    (processOneDecl d info fp pn iv content fs).2 =
      List.replicate (declSpecReads content d) fp := by
  by_cases hv : invalidSpan d.pos.offset d.endp.offset content.length
  · simp [processOneDecl, hv, declSpecReads]
  · simp only [Bool.not_eq_true] at hv
    cases d with
    | funcDecl fd p e =>
      simp only [Decl.pos, Decl.endp] at hv
      simp [processOneDecl, Decl.pos, Decl.endp, hv, declSpecReads, processDeclaration]
    | badDecl p e =>
      simp only [Decl.pos, Decl.endp] at hv
      simp [processOneDecl, Decl.pos, Decl.endp, hv, declSpecReads, processDeclaration]
    | genDecl tok specs p e =>
      simp only [Decl.pos, Decl.endp] at hv
      by_cases ht : tok = .importTok
      · simp [processOneDecl, Decl.pos, Decl.endp, hv, declSpecReads, processDeclaration,
          processGeneralDeclaration, ht]
      · have haux : ∀ (md : Metadata),
            ((specs.map (Prod.snd ∘ fun sp => processSpecification sp info md fp fs)).flatten) =
              List.replicate (specs.filter Spec.isTypeOrValue).length fp := by
          intro md
          have hfun : (Prod.snd ∘ fun sp => processSpecification sp info md fp fs) =
              (fun sp => if sp.isTypeOrValue then [fp] else []) :=
            funext (fun sp => processSpecification_log sp info md fp fs)
          rw [hfun, flattenSpecLogs]
        simp [processOneDecl, Decl.pos, Decl.endp, hv, declSpecReads, processDeclaration,
          processGeneralDeclaration, ht, haux]

/-- A file's declaration-loop read log: one read of the file's own path per
type/value binding of a surviving non-import group. -/
theorem processFileDeclarations_log (decls : List Decl) (info : Info)
    (fp pn : String) (iv : Bool) (content : String) (fs : FS) :
    (processFileDeclarations decls info fp pn iv content fs).2 =
      List.replicate (fileSpecReads content decls) fp := by
  induction decls with
  | nil => rfl
  | cons d rest ih =>
    rw [processFileDeclarations_cons]
    dsimp only
    rw [processOneDecl_log, ih]
    have hsum : fileSpecReads content (d :: rest) =
        declSpecReads content d + fileSpecReads content rest := by
      simp [fileSpecReads]
    rw [hsum, List.replicate_add]

/-- Claim C4 (amended): processing a file reads the file's path once at file
level (the source of the top-level declaration slices), plus exactly one
re-read of the same path per type/value binding chunk; every read in the
file's log is of the file's own path. -/
theorem C4_read_discipline (f : FileData) (info : Info) (pn avp : String) (fs : FS) :
    (fs f.path = none → (processFile f info pn avp fs).2 = [f.path]) ∧
    (∀ content, fs f.path = some content →
      (processFile f info pn avp fs).2 =
        List.replicate (fileSpecReads content f.decls + 1) f.path) := by
  constructor
  · intro h
    simp [processFile, h]
  · intro content h
    rcases hres : processFileDeclarations f.decls info f.path pn
        ((avp ++ "/").isPrefixOf f.path) content fs with ⟨chunks, log⟩
    have hlog : log = List.replicate (fileSpecReads content f.decls) f.path := by
      have hall := processFileDeclarations_log f.decls info f.path pn
        ((avp ++ "/").isPrefixOf f.path) content fs
      rw [hres] at hall
      exact hall
    simp [processFile, h, hres, hlog, List.replicate_succ]

/-- Counterexample to C4 as stated: a file containing a single var binding
is read twice (once at file level, once by the binding), not exactly once. -/
theorem C4_counterexample :
    (processFile exVarFile exInfoNone "m" "/abs/vendor" exVarFs).2 = ["g.go", "g.go"] ∧
      ((processFile exVarFile exInfoNone "m" "/abs/vendor" exVarFs).2.count "g.go" = 2) ∧
      2 ≠ 1 := by
  refine ⟨by decide, by decide, by decide⟩

/-- Witness for the amended C4 at the single-var-binding file: one file-level
read plus one binding re-read. -/
theorem C4_witness :
    exVarFs exVarFile.path = some "var x = 1" ∧
      (processFile exVarFile exInfoNone "m" "/abs/vendor" exVarFs).2 =
        List.replicate (fileSpecReads "var x = 1" exVarFile.decls + 1) exVarFile.path :=
  ⟨rfl, (C4_read_discipline exVarFile exInfoNone "m" "/abs/vendor" exVarFs).2 "var x = 1" rfl⟩

/-- Dereferencing the freshly appended cell. -/
theorem hGet_append_last (h : Heap) (m : Metadata) : hGet (h ++ [m]) h.length = m := by
  induction h with
  | nil => rfl
  | cons a t ih => simpa [hGet] using ih

/-- Appending a cell leaves the existing cells readable unchanged. -/
theorem hGet_append_lt (h : Heap) (m : Metadata) (j : Nat) (hj : j < h.length) :
    hGet (h ++ [m]) j = hGet h j := by
  induction h generalizing j with
  | nil => exact absurd hj (by simp)
  | cons a t ih =>
    cases j with
    | zero => rfl
    | succ j' =>
      have hj' : j' < t.length := by simpa using hj
      simpa [hGet] using ih j' hj'

/-- Overwriting the freshly appended cell. -/
theorem hSet_append_last (h : Heap) (m x : Metadata) :
    hSet (h ++ [m]) h.length x = h ++ [x] := by
  induction h with
  | nil => rfl
  | cons a t ih => simpa [hSet] using ih


/-- One step of the heap-instrumented specification loop: it allocates
exactly one fresh cell holding the per-binding metadata (a copy of the
dereferenced group metadata with the per-binding keys written), any emitted
chunk references that fresh cell, and no other cell is touched. -/
theorem processSpecificationH_step (sp : Spec) (info : Info) (baseRef : Nat)
    (fp : String) (fs : FS) (h : Heap) :
    ∃ m', (processSpecificationH sp info baseRef fp fs h).2 = h ++ [m'] ∧
      (∀ c ∈ (processSpecificationH sp info baseRef fp fs h).1.toList,
        c.metaRef = h.length) ∧
      ((processSpecificationH sp info baseRef fp fs h).1.isSome = true →
        mget m' "entity_name" = some (.str (specEntityName sp))) ∧
      (∀ k, k ≠ "entity_name" → k ≠ "type" → k ≠ "type_category" →
        mget m' k = mget (hGet h baseRef) k) := by
  cases sp with
  | typeSpec name typ p e =>
    have hchar : ∃ copt,
        processSpecificationH (.typeSpec name typ p e) info baseRef fp fs h =
          (copt, h ++ [mset (mset (hGet h baseRef) "entity_name" (.str name))
            "type_category" (.str (typeCategoryOf typ))]) ∧
        (∀ c, copt = some c → c.metaRef = h.length) := by
      unfold processSpecificationH processTypeSpecificationH hAlloc
      dsimp only
      rw [hGet_append_last, hSet_append_last, hGet_append_last, hSet_append_last]
      rcases hfs : fs fp with _ | content
      · exact ⟨none, rfl, by simp⟩
      · dsimp only
        by_cases hv : invalidSpan p.offset e.offset content.length = true
        · rw [if_pos hv]
          exact ⟨none, rfl, by simp⟩
        · rw [if_neg hv]
          refine ⟨some _, rfl, fun c hc => ?_⟩
          cases hc
          rfl
    obtain ⟨copt, heq, href⟩ := hchar
    refine ⟨_, by rw [heq], fun c hc => ?_, fun _ => ?_, fun k h1 h2 h3 => ?_⟩
    · rw [heq] at hc
      simp only [Option.toList, List.mem_singleton] at hc
      rcases hcopt : copt with _ | c0
      · rw [hcopt] at hc
        simp at hc
      · rw [hcopt] at hc
        simp at hc
        subst hc
        exact href _ hcopt
    · rw [mget_mset_ne _ _ _ _ (by decide), mget_mset_self]
      rfl
    · rw [mget_mset_ne _ _ _ _ h3, mget_mset_ne _ _ _ _ h1]
  | valueSpec names typ values p e =>
    have hchar : ∃ m1 copt,
        processSpecificationH (.valueSpec names typ values p e) info baseRef fp fs h =
          (copt, h ++ [m1]) ∧
        (∀ c, copt = some c → c.metaRef = h.length) ∧
        mget m1 "entity_name" = some (.str (String.intercalate ", " names)) ∧
        (∀ k, k ≠ "entity_name" → k ≠ "type" → mget m1 k = mget (hGet h baseRef) k) := by
      unfold processSpecificationH processValueSpecificationH hAlloc
      dsimp only
      simp only [hGet_append_last, hSet_append_last]
      have hfinish : ∀ m1 : Metadata,
          mget m1 "entity_name" = some (.str (String.intercalate ", " names)) →
          (∀ k, k ≠ "entity_name" → k ≠ "type" → mget m1 k = mget (hGet h baseRef) k) →
          ∃ m2 copt,
            ((match fs fp with
              | none => ((none : Option ChunkRef), h ++ [m1])
              | some content =>
                if invalidSpan p.offset e.offset content.length = true then (none, h ++ [m1])
                else
                  (some { id := mkChunkId fp p.line e.line (String.intercalate ", " names)
                        , document := ApplyQualifierReplacements
                            (goSlice content p.offset e.offset)
                            (some (.specNode (.valueSpec names typ values p e))) (some info)
                        , metaRef := h.length }, h ++ [m1])) = (copt, h ++ [m2])) ∧
            (∀ c, copt = some c → c.metaRef = h.length) ∧
            mget m2 "entity_name" = some (.str (String.intercalate ", " names)) ∧
            (∀ k, k ≠ "entity_name" → k ≠ "type" → mget m2 k = mget (hGet h baseRef) k) := by
        intro m1 hen hkeep
        rcases hfs : fs fp with _ | content
        · exact ⟨m1, none, rfl, by simp, hen, hkeep⟩
        · dsimp only
          by_cases hv : invalidSpan p.offset e.offset content.length = true
          · rw [if_pos hv]
            exact ⟨m1, none, rfl, by simp, hen, hkeep⟩
          · rw [if_neg hv]
            refine ⟨m1, some _, rfl, fun c hc => ?_, hen, hkeep⟩
            cases hc
            rfl
      rcases typ with _ | t
      · rcases values with _ | ⟨v, vs⟩
        · dsimp only
          exact hfinish _ (by rw [mget_mset_self])
            (fun k h1 h2 => by rw [mget_mset_ne _ _ _ _ h1])
        · rcases htv : info.typeOf v with _ | tv
          · dsimp only
            rw [htv]
            exact hfinish _ (by rw [mget_mset_self])
              (fun k h1 h2 => by rw [mget_mset_ne _ _ _ _ h1])
          · dsimp only
            rw [htv]
            exact hfinish _
              (by rw [mget_mset_ne _ _ _ _ (by decide), mget_mset_self])
              (fun k h1 h2 => by rw [mget_mset_ne _ _ _ _ h2, mget_mset_ne _ _ _ _ h1])
      · dsimp only
        exact hfinish _
          (by rw [mget_mset_ne _ _ _ _ (by decide), mget_mset_self])
          (fun k h1 h2 => by rw [mget_mset_ne _ _ _ _ h2, mget_mset_ne _ _ _ _ h1])
    obtain ⟨m1, copt, heq, href, hen, hkeep⟩ := hchar
    refine ⟨m1, by rw [heq], fun c hc => ?_, fun _ => hen, fun k h1 h2 h3 => hkeep k h1 h2⟩
    rw [heq] at hc
    simp only [Option.toList, List.mem_singleton] at hc
    rcases hcopt : copt with _ | c0
    · rw [hcopt] at hc
      simp at hc
    · rw [hcopt] at hc
      simp at hc
      subst hc
      exact href _ hcopt
  | importSpec p e =>
    refine ⟨hGet h baseRef, ?_, ?_, ?_, fun k _ _ _ => rfl⟩
    · rfl
    · intro c hc
      simp [processSpecificationH, hAlloc, Option.toList] at hc
    · intro hs
      simp [processSpecificationH, hAlloc] at hs

/-- Invariant of the heap-instrumented specification loop: the heap only
grows, pre-existing cells are never modified, every emitted chunk references
a cell allocated by its own specification (all references fresh and
pairwise distinct), and each such cell holds its own specification's entity
name over an otherwise untouched copy of the group metadata. -/
theorem processSpecsH_props (specs : List Spec) (info : Info) (baseRef : Nat)
    (fp : String) (fs : FS) :
    ∀ h : Heap, baseRef < h.length →
      h.length ≤ (processSpecsH specs info baseRef fp fs h).2.length ∧
      (∀ j, j < h.length →
        hGet (processSpecsH specs info baseRef fp fs h).2 j = hGet h j) ∧
      (∀ c ∈ (processSpecsH specs info baseRef fp fs h).1,
        h.length ≤ c.metaRef ∧
          c.metaRef < (processSpecsH specs info baseRef fp fs h).2.length) ∧
      ((processSpecsH specs info baseRef fp fs h).1.map ChunkRef.metaRef).Pairwise
        (fun a b => a < b) ∧
      (∀ c ∈ (processSpecsH specs info baseRef fp fs h).1, ∃ sp ∈ specs,
        mget (hGet (processSpecsH specs info baseRef fp fs h).2 c.metaRef) "entity_name" =
          some (.str (specEntityName sp)) ∧
        (∀ k, k ≠ "entity_name" → k ≠ "type" → k ≠ "type_category" →
          mget (hGet (processSpecsH specs info baseRef fp fs h).2 c.metaRef) k =
            mget (hGet h baseRef) k)) := by
  induction specs with
  | nil =>
    intro h hbase
    refine ⟨le_refl _, fun j _ => rfl, by simp [processSpecsH], by simp [processSpecsH],
      by simp [processSpecsH]⟩
  | cons s rest ih =>
    intro h hbase
    obtain ⟨m', hheap, hrefs, hen, hkeep⟩ := processSpecificationH_step s info baseRef fp fs h
    have hunfold : processSpecsH (s :: rest) info baseRef fp fs h =
        ((processSpecificationH s info baseRef fp fs h).1.toList ++
           (processSpecsH rest info baseRef fp fs
             ((processSpecificationH s info baseRef fp fs h).2)).1,
         (processSpecsH rest info baseRef fp fs
           ((processSpecificationH s info baseRef fp fs h).2)).2) := rfl
    have hlen1 : (h ++ [m']).length = h.length + 1 := by simp
    have hbase1 : baseRef < (h ++ [m']).length := by omega
    obtain ⟨ihlen, ihframe, ihrefs, ihpair, ihcontent⟩ := ih (h ++ [m']) hbase1
    have hlc : h.length < (h ++ [m']).length := by omega
    refine ⟨?_, ?_, ?_, ?_, ?_⟩
    · rw [hunfold]
      dsimp only
      rw [hheap]
      omega
    · intro j hj
      rw [hunfold]
      dsimp only
      rw [hheap]
      rw [ihframe j (by omega), hGet_append_lt h m' j hj]
    · intro c hc
      rw [hunfold] at hc
      dsimp only at hc
      rw [hheap] at hc
      rcases List.mem_append.mp hc with hcl | hcr
      · have := hrefs c hcl
        constructor
        · omega
        · rw [hunfold]
          dsimp only
          rw [hheap]
          omega
      · have := ihrefs c hcr
        constructor
        · omega
        · rw [hunfold]
          dsimp only
          rw [hheap]
          omega
    · rw [hunfold]
      dsimp only
      rw [hheap]
      rw [List.map_append]
      rw [List.pairwise_append]
      refine ⟨?_, ihpair, ?_⟩
      · rcases hopt : (processSpecificationH s info baseRef fp fs h).1 with _ | c0 <;>
          simp [Option.toList]
      · intro a ha b hb
        rcases List.mem_map.mp ha with ⟨ca, hca, rfl⟩
        rcases List.mem_map.mp hb with ⟨cb, hcb, rfl⟩
        have ha' := hrefs ca hca
        have hb' := ihrefs cb hcb
        omega
    · intro c hc
      rw [hunfold] at hc ⊢
      dsimp only at hc ⊢
      rw [hheap] at hc ⊢
      rcases List.mem_append.mp hc with hcl | hcr
      · refine ⟨s, List.mem_cons_self s rest, ?_, ?_⟩
        · have hcm := hrefs c hcl
          have hsome : (processSpecificationH s info baseRef fp fs h).1.isSome = true := by
            rcases hopt : (processSpecificationH s info baseRef fp fs h).1 with _ | c0
            · rw [hopt] at hcl
              simp [Option.toList] at hcl
            · rfl
          rw [hcm, ihframe h.length hlc, hGet_append_last]
          exact hen hsome
        · intro k h1 h2 h3
          have hcm := hrefs c hcl
          rw [hcm, ihframe h.length hlc, hGet_append_last]
          exact hkeep k h1 h2 h3
      · obtain ⟨sp, hsp, hspen, hspkeep⟩ := ihcontent c hcr
        refine ⟨sp, List.mem_cons_of_mem s hsp, hspen, ?_⟩
        intro k h1 h2 h3
        rw [hspkeep k h1 h2 h3, hGet_append_lt h m' baseRef hbase]

/-- Claim C5: in a non-import declaration group every binding's chunk gets
its own freshly allocated metadata map (references pairwise distinct and
distinct from the group map), the group map and all pre-existing maps are
never modified, and each binding's final metadata carries its own entity
name over an untouched copy of the group-level metadata — so per-binding
writes never reach a sibling binding's metadata. -/
theorem C5_metadata_isolation (tok : Tok) (specs : List Spec) (info : Info)
    (baseRef : Nat) (fp : String) (fs : FS) (h : Heap)
    (htok : tok ≠ .importTok) (hbase : baseRef < h.length) :
    (∀ j, j < h.length →
      hGet (processGeneralDeclarationH tok specs info baseRef fp fs h).2 j = hGet h j) ∧
    (∀ c ∈ (processGeneralDeclarationH tok specs info baseRef fp fs h).1,
      baseRef ≠ c.metaRef ∧ h.length ≤ c.metaRef) ∧
    ((processGeneralDeclarationH tok specs info baseRef fp fs h).1.map
      ChunkRef.metaRef).Nodup ∧
    (∀ c ∈ (processGeneralDeclarationH tok specs info baseRef fp fs h).1, ∃ sp ∈ specs,
      mget (hGet (processGeneralDeclarationH tok specs info baseRef fp fs h).2 c.metaRef)
        "entity_name" = some (.str (specEntityName sp)) ∧
      (∀ k, k ≠ "entity_name" → k ≠ "type" → k ≠ "type_category" →
        mget (hGet (processGeneralDeclarationH tok specs info baseRef fp fs h).2 c.metaRef) k =
          mget (hGet h baseRef) k)) := by
  have hred : processGeneralDeclarationH tok specs info baseRef fp fs h =
      processSpecsH specs info baseRef fp fs h := by
    simp [processGeneralDeclarationH, htok]
  obtain ⟨hlen, hframe, hrefs, hpair, hcontent⟩ :=
    processSpecsH_props specs info baseRef fp fs h hbase
  rw [hred]
  refine ⟨hframe, fun c hc => ?_, ?_, hcontent⟩
  · have hr := hrefs c hc
    exact ⟨by omega, hr.1⟩
  · exact hpair.imp (fun hab => Nat.ne_of_lt hab)

/-- Witness for C5 at a two-binding type group over a concrete heap: the
group metadata cell is untouched by the whole group processing. -/
theorem C5_witness :
    (Tok.typeTok ≠ Tok.importTok) ∧ 0 < exBaseHeap.length ∧
      hGet (processGeneralDeclarationH .typeTok [exSpecA, exSpecB] exInfoNone 0 "t.go"
        exGroupFs exBaseHeap).2 0 = hGet exBaseHeap 0 :=
  ⟨by decide, by decide,
   (C5_metadata_isolation .typeTok [exSpecA, exSpecB] exInfoNone 0 "t.go" exGroupFs
      exBaseHeap (by decide) (by decide)).1 0 (by decide)⟩

/-- Counterexample to C1 as stated: the produced method chunk's identifier
ends in the bare function name `Bar`, not in the entity-name metadata value
`*Foo.Bar`. -/
theorem C1_counterexample :
    ParsePackages (fun s => some s) [exMethodPkg] "/proj" exMethodFs =
      .ok [exMethodChunk] ∧
    mget exMethodChunk.metadata "entity_name" = some (.str "*Foo.Bar") ∧
    exMethodChunk.id = "f.go:1-1-Bar" ∧
    "f.go:1-1-Bar" ≠ mkChunkId "f.go" 1 1 "*Foo.Bar" := by
  exact ⟨rfl, by decide, rfl, by decide⟩

/-- The metadata built for a declaration keeps its `file_path` entry under
the later per-entity writes of `processFunctionDeclaration`. -/
theorem processFunctionDeclaration_props (fd : FuncDecl) (info : Info) (code : String)
    (md : Metadata) (fp : String) (sp ep : Position) (c : ChromaDocument)
    (h : processFunctionDeclaration fd info code md fp sp ep = some c) :
    c.id = mkChunkId fp sp.line ep.line fd.name ∧
    mget c.metadata "file_path" = mget md "file_path" ∧
    (mget c.metadata "entity_name" = some (.str fd.name) ∨
      (mget c.metadata "entity_type" = some (.str "method") ∧
        ∃ r, mget c.metadata "receiver_type" = some (.str r) ∧
          mget c.metadata "entity_name" = some (.str (r ++ "." ++ fd.name)))) := by
  rcases hrecv : fd.recv with _ | l
  · have hres : processFunctionDeclaration fd info code md fp sp ep = some
        { id := mkChunkId fp sp.line ep.line fd.name
        , document := ApplyQualifierReplacements code (some (.funcDeclNode fd)) (some info)
        , metadata := mset (mset md "entity_type" (.str "function"))
            "entity_name" (.str fd.name) } := by
      simp [processFunctionDeclaration, hrecv]
    rw [hres] at h
    have hc := Option.some.inj h
    subst hc
    refine ⟨rfl, ?_, Or.inl ?_⟩
    · rw [mget_mset_ne _ _ _ _ (by decide), mget_mset_ne _ _ _ _ (by decide)]
    · rw [mget_mset_self]
  · rcases l with _ | ⟨t, rest⟩
    · have hres : processFunctionDeclaration fd info code md fp sp ep = some
          { id := mkChunkId fp sp.line ep.line fd.name
          , document := ApplyQualifierReplacements code (some (.funcDeclNode fd)) (some info)
          , metadata := mset (mset md "entity_type" (.str "function"))
              "entity_name" (.str fd.name) } := by
        simp [processFunctionDeclaration, hrecv]
      rw [hres] at h
      have hc := Option.some.inj h
      subst hc
      refine ⟨rfl, ?_, Or.inl ?_⟩
      · rw [mget_mset_ne _ _ _ _ (by decide), mget_mset_ne _ _ _ _ (by decide)]
      · rw [mget_mset_self]
    · have hres : processFunctionDeclaration fd info code md fp sp ep = some
          { id := mkChunkId fp sp.line ep.line fd.name
          , document := ApplyQualifierReplacements code (some (.funcDeclNode fd)) (some info)
          , metadata := mset (mset (mset (mset (mset md "entity_type" (.str "function"))
              "entity_name" (.str fd.name)) "entity_type" (.str "method"))
              "receiver_type" (.str (GetTypeString t info)))
              "entity_name" (.str (GetTypeString t info ++ "." ++ fd.name)) } := by
        simp [processFunctionDeclaration, hrecv]
      rw [hres] at h
      have hc := Option.some.inj h
      subst hc
      refine ⟨rfl, ?_, Or.inr ⟨?_, GetTypeString t info, ?_, ?_⟩⟩
      · rw [mget_mset_ne _ _ _ _ (by decide), mget_mset_ne _ _ _ _ (by decide),
          mget_mset_ne _ _ _ _ (by decide), mget_mset_ne _ _ _ _ (by decide),
          mget_mset_ne _ _ _ _ (by decide)]
      · rw [mget_mset_ne _ _ _ _ (by decide), mget_mset_ne _ _ _ _ (by decide),
          mget_mset_self]
      · rw [mget_mset_ne _ _ _ _ (by decide), mget_mset_self]
      · rw [mget_mset_self]

/-- A type binding chunk's identifier uses the lines of the binding's own
span and the declared type name, which is also its entity-name metadata;
the group-level `file_path` entry is untouched. -/
theorem processTypeSpecification_props (name : String) (typ : Expr) (info : Info)
    (md : Metadata) (fp : String) (p e : Position) (fs : FS) (c : ChromaDocument)
    (h : (processTypeSpecification name typ info md fp p e fs).1 = some c) :
    c.id = mkChunkId fp p.line e.line name ∧
    mget c.metadata "entity_name" = some (.str name) ∧
    mget c.metadata "file_path" = mget md "file_path" := by
  cases typ <;>
    (unfold processTypeSpecification at h
     dsimp only at h
     rcases hfs : fs fp with _ | content
     · rw [hfs] at h
       simp at h
     · rw [hfs] at h
       dsimp only at h
       by_cases hv : invalidSpan p.offset e.offset content.length = true
       · rw [if_pos hv] at h
         simp at h
       · rw [if_neg hv] at h
         have hc := Option.some.inj h
         subst hc
         refine ⟨rfl, ?_, ?_⟩
         · rw [mget_mset_ne _ _ _ _ (by decide), mget_mset_self]
         · rw [mget_mset_ne _ _ _ _ (by decide), mget_mset_ne _ _ _ _ (by decide)])

/-- A value binding chunk's identifier uses the lines of the binding's own
span and the comma-joined name list, which is also its entity-name
metadata; the group-level `file_path` entry is untouched. -/
theorem processValueSpecification_props (names : List String) (typ : Option Expr)
    (values : List Expr) (info : Info) (md : Metadata) (fp : String) (p e : Position)
    (fs : FS) (c : ChromaDocument)
    (h : (processValueSpecification names typ values info md fp p e fs).1 = some c) :
    c.id = mkChunkId fp p.line e.line (String.intercalate ", " names) ∧
    mget c.metadata "entity_name" = some (.str (String.intercalate ", " names)) ∧
    mget c.metadata "file_path" = mget md "file_path" := by
  unfold processValueSpecification at h
  dsimp only at h
  have hfinish : ∀ m1 : Metadata,
      mget m1 "entity_name" = some (.str (String.intercalate ", " names)) →
      mget m1 "file_path" = mget md "file_path" →
      (match fs fp with
        | none => ((none : Option ChromaDocument), [fp])
        | some content =>
          if invalidSpan p.offset e.offset content.length = true then (none, [fp])
          else
            (some { id := mkChunkId fp p.line e.line (String.intercalate ", " names)
                  , document := ApplyQualifierReplacements
                      (goSlice content p.offset e.offset)
                      (some (.specNode (.valueSpec names typ values p e))) (some info)
                  , metadata := m1 }, [fp])).1 = some c →
      c.id = mkChunkId fp p.line e.line (String.intercalate ", " names) ∧
      mget c.metadata "entity_name" = some (.str (String.intercalate ", " names)) ∧
      mget c.metadata "file_path" = mget md "file_path" := by
    intro m1 hen hfpk h1
    rcases hfs : fs fp with _ | content
    · rw [hfs] at h1
      simp at h1
    · rw [hfs] at h1
      dsimp only at h1
      by_cases hv : invalidSpan p.offset e.offset content.length = true
      · rw [if_pos hv] at h1
        simp at h1
      · rw [if_neg hv] at h1
        have hc := Option.some.inj h1
        subst hc
        exact ⟨rfl, hen, hfpk⟩
  rcases typ with _ | t
  · dsimp only at h
    rcases values with _ | ⟨v, vs⟩
    · exact hfinish _ (by rw [mget_mset_self])
        (by rw [mget_mset_ne _ _ _ _ (by decide)]) h
    · dsimp only at h
      rcases htv : info.typeOf v with _ | tv <;> rw [htv] at h
      · exact hfinish _ (by rw [mget_mset_self])
          (by rw [mget_mset_ne _ _ _ _ (by decide)]) h
      · exact hfinish _
          (by rw [mget_mset_ne _ _ _ _ (by decide), mget_mset_self])
          (by rw [mget_mset_ne _ _ _ _ (by decide), mget_mset_ne _ _ _ _ (by decide)]) h
  · dsimp only at h
    exact hfinish _
      (by rw [mget_mset_ne _ _ _ _ (by decide), mget_mset_self])
      (by rw [mget_mset_ne _ _ _ _ (by decide), mget_mset_ne _ _ _ _ (by decide)]) h

/-- A specification chunk's identifier uses the lines of the binding's own
span and its entity name, which is also its entity-name metadata; the
group-level `file_path` entry is untouched. -/
theorem processSpecification_props (spec : Spec) (info : Info) (md : Metadata)
    (fp : String) (fs : FS) (c : ChromaDocument)
    (h : (processSpecification spec info md fp fs).1 = some c) :
    c.id = mkChunkId fp spec.pos.line spec.endp.line (specEntityName spec) ∧
    mget c.metadata "entity_name" = some (.str (specEntityName spec)) ∧
    mget c.metadata "file_path" = mget md "file_path" := by
  cases spec with
  | typeSpec name typ p e =>
    exact processTypeSpecification_props name typ info md fp p e fs c h
  | valueSpec names typ values p e =>
    exact processValueSpecification_props names typ values info md fp p e fs c h
  | importSpec p e => simp [processSpecification] at h

/-- Every chunk a declaration produces satisfies the amended identifier
shape. -/
theorem processOneDecl_chunks (d : Decl) (info : Info) (fp pn : String) (iv : Bool)
    (content : String) (fs : FS) (c : ChromaDocument)
    (hc : c ∈ (processOneDecl d info fp pn iv content fs).1) :
    specIdNameConsistent c := by
  unfold processOneDecl at hc
  by_cases hv : invalidSpan d.pos.offset d.endp.offset content.length = true
  · rw [if_pos hv] at hc
    simp at hc
  · rw [if_neg hv] at hc
    dsimp only at hc
    have hbase : mget (mset (mset (mset (mset ([] : Metadata) "file_path" (.str fp))
        "package_name" (.str pn)) "is_vendored" (.boolV iv)) "accessed_symbols"
        (.strList (ExtractAccessedSymbols (some d.toNode) (some info)))) "file_path" =
        some (.str fp) := by
      rw [mget_mset_ne _ _ _ _ (by decide), mget_mset_ne _ _ _ _ (by decide),
        mget_mset_ne _ _ _ _ (by decide), mget_mset_self]
    cases d with
    | funcDecl fd p e =>
      dsimp only [processDeclaration] at hc
      rw [Option.mem_toList, Option.mem_def] at hc
      obtain ⟨hid, hfp, hdisj⟩ :=
        processFunctionDeclaration_props fd info _ _ fp p e c hc
      rw [hbase] at hfp
      rcases hdisj with hen | ⟨hmt, r, hrt, hen⟩
      · exact ⟨fp, p.line, e.line, fd.name, fd.name, hfp, hid, hen, Or.inl rfl⟩
      · exact ⟨fp, p.line, e.line, fd.name, r ++ "." ++ fd.name, hfp, hid, hen,
          Or.inr ⟨hmt, r, hrt, rfl⟩⟩
    | genDecl tok specs p e =>
      dsimp only [processDeclaration, processGeneralDeclaration] at hc
      by_cases ht : tok = .importTok
      · rw [if_pos ht] at hc
        simp at hc
      · rw [if_neg ht] at hc
        dsimp only at hc
        simp only [List.map_map, List.mem_flatten, List.mem_map] at hc
        obtain ⟨l, ⟨sp0, hsp0, rfl⟩, hcl⟩ := hc
        dsimp only [Function.comp] at hcl
        rw [Option.mem_toList, Option.mem_def] at hcl
        obtain ⟨hid, hen, hfp⟩ := processSpecification_props sp0 info _ fp fs c hcl
        rw [hbase] at hfp
        exact ⟨fp, sp0.pos.line, sp0.endp.line, specEntityName sp0, specEntityName sp0,
          hfp, hid, hen, Or.inl rfl⟩
    | badDecl p e =>
      dsimp only [processDeclaration] at hc
      simp at hc

/-- Claim C1 (amended): every produced chunk's identifier is
`<file_path>:<start_line>-<end_line>-<n>` with the 1-based line numbers of
its span from the position index, where `n` equals the entity-name metadata
for type and value bindings and for plain functions, while for a method `n`
is the bare function name and the entity name is `<receiver_type>.<n>`. -/
theorem C1_chunk_identifier :
    (∀ fd info code md fp sp ep c,
      processFunctionDeclaration fd info code md fp sp ep = some c →
      c.id = mkChunkId fp sp.line ep.line fd.name) ∧
    (∀ (spec : Spec) info md fp fs c,
      (processSpecification spec info md fp fs).1 = some c →
      c.id = mkChunkId fp spec.pos.line spec.endp.line (specEntityName spec) ∧
      mget c.metadata "entity_name" = some (.str (specEntityName spec))) ∧
    (∀ abs pkgs root fs cs, ParsePackages abs pkgs root fs = .ok cs →
      ∀ c ∈ cs, specIdNameConsistent c) := by
  refine ⟨fun fd info code md fp sp ep c h =>
      (processFunctionDeclaration_props fd info code md fp sp ep c h).1,
    fun spec info md fp fs c h =>
      ⟨(processSpecification_props spec info md fp fs c h).1,
       (processSpecification_props spec info md fp fs c h).2.1⟩, ?_⟩
  intro abs pkgs root fs cs hok c hcs
  unfold ParsePackages at hok
  rcases habs : abs (root ++ "/vendor") with _ | avp <;> rw [habs] at hok
  · exact absurd hok (by simp)
  · injection hok with hok1
    subst hok1
    simp only [List.mem_flatten, List.mem_map] at hcs
    obtain ⟨l, ⟨pkg, hpkg, rfl⟩, hcl⟩ := hcs
    obtain ⟨pid, pname, pti, psf, phf⟩ := pkg
    rcases pti with _ | info0
    · simp at hcl
    · rcases psf with _ | files
      · simp at hcl
      · rcases phf with _ | _
        · simp at hcl
        · dsimp only [processPackage] at hcl
          simp only [List.map_map, List.mem_flatten, List.mem_map] at hcl
          obtain ⟨l2, ⟨f, hf, rfl⟩, hcf⟩ := hcl
          first
          | dsimp only [Function.comp] at hcf
          | skip
          unfold processFile at hcf
          rcases hread : fs f.path with _ | content <;> rw [hread] at hcf
          · simp at hcf
          · dsimp only at hcf
            rcases hpfd : processFileDeclarations f.decls info0 f.path pname
                ((avp ++ "/").isPrefixOf f.path) content fs with ⟨chunks, log⟩
            rw [hpfd] at hcf
            dsimp only at hcf
            have hcf' : c ∈ (processFileDeclarations f.decls info0 f.path pname
                ((avp ++ "/").isPrefixOf f.path) content fs).1 := by
              rw [hpfd]
              exact hcf
            unfold processFileDeclarations at hcf'
            simp only [List.map_map, List.mem_flatten, List.mem_map] at hcf'
            obtain ⟨l3, ⟨d, hd, rfl⟩, hcd⟩ := hcf'
            first
            | dsimp only [Function.comp] at hcd
            | skip
            exact processOneDecl_chunks d info0 f.path pname
              ((avp ++ "/").isPrefixOf f.path) content fs c hcd

/-- Witness for the amended C1 at the method package: its chunk satisfies
the amended identifier shape. -/
theorem C1_witness :
    ParsePackages (fun s => some s) [exMethodPkg] "/proj" exMethodFs =
      .ok [exMethodChunk] ∧ specIdNameConsistent exMethodChunk :=
  ⟨rfl, (C1_chunk_identifier).2.2 (fun s => some s) [exMethodPkg] "/proj" exMethodFs
    [exMethodChunk] rfl exMethodChunk (List.mem_singleton.mpr rfl)⟩
